import Mathlib

/-!
Shallow embedding of the Millennium-Falcon odds pipeline.

The repository contains two parallel implementations of the same pipeline:
`src/Millennium-falcon-solution/Galaxy.py` (class `MillenniumFalcon`) and
`src/Giskard-solution/Galaxy.py` (class `Millennium_falcon`).  Both share the
algorithm (graph build, simple-path enumeration, autonomy simulation, deadline
filter, rest-variant generation, encounter scoring); they differ only in

  * the synthetic rested marker inserted at a rest stop
    (Millennium-falcon: the f-string `f"{stop}*{rest}"`;
     Giskard: the Python string repetition `stop * rest` with `rest = 1`), and
  * the identifier assigned to a rest variant
    (Millennium-falcon: `f"{key}_{idx + 1}"`; Giskard: `key + str(idx + 1)`).

The embedding therefore parameterises the pipeline over those two functions
(`Solution`) and over the iteration order of Python's `set(path[:-1])`
(`enum`), which CPython leaves unspecified (hash-dependent) and which the
spec itself calls "set iteration order, not guaranteed path order".

Machine integers are embedded as `Nat` (the spec declares `travel_time`
positive and `countdown` non-negative); probabilities are embedded as `ℚ`
(Python floats on these small closed-form values; the formulas are exact).
Fallible Python code (exceptions) is embedded with `Except`.
-/

/-- One record of the ROUTES table: `{origin, destination, travel_time}`. -/
structure Edge where
  origin : String
  destination : String
  travelTime : Nat
  deriving DecidableEq

/-- One bounty-hunter sighting, as in `Empire.bounty_hunters`: a planet and a day. -/
structure BountyHunter where
  planet : String
  day : Nat
  deriving DecidableEq

/-- An itinerary: the parallel `stops` / `days` lists built by `find_feasible_paths`. -/
abbrev Itin := List String × List Nat

/-- The Python exceptions that can escape the embedded pipeline. -/
inductive PyErr where
  | NodeNotFound
  | ValueError
  | IndexError
  deriving DecidableEq

deriving instance DecidableEq for Except

/-- Whether edge record `e` connects `u` and `v` (the graph is undirected:
`Graph.add_edge(origin, destination, distance=travel_time)`). -/
def edgeMatches (u v : String) (e : Edge) : Bool :=
  (e.origin == u && e.destination == v) || (e.origin == v && e.destination == u)

/-- Edge weight `graph[u][v]["distance"]`.  `add_edge` on an existing pair
overwrites the attribute, so the LAST matching record wins; 0 when the edge is
absent (the pipeline only queries pairs that are adjacent on an enumerated
path, so the default is never observable there). -/
def weight (es : List Edge) (u v : String) : Nat :=
  match es.reverse.find? (edgeMatches u v) with
  | some e => e.travelTime
  | none => 0

/-- Append a node if it is not present yet (networkx node insertion order). -/
def addNode (ns : List String) (x : String) : List String :=
  if x ∈ ns then ns else ns ++ [x]

/-- The node list of the graph built from the edge records, in insertion order
(`add_edge` inserts the origin, then the destination). -/
def nodesOf (es : List Edge) : List String :=
  es.foldl (fun ns e => addNode (addNode ns e.origin) e.destination) []

/-- Neighbours of `u` in the built graph. -/
def neighbors (es : List Edge) (u : String) : List String :=
  (nodesOf es).filter (fun v => es.any (edgeMatches u v))

/-- Depth-first enumeration of simple paths from `cur` to `arr` avoiding
`visited`; `fuel` bounds the recursion depth (a simple path visits each node at
most once, so `(nodesOf es).length` is enough fuel). -/
def simplePathsAux (es : List Edge) (arr : String) :
    Nat → String → List String → List (List String)
  | 0, _, _ => []
  | fuel + 1, cur, visited =>
    if cur = arr then [[cur]]
    else
      ((neighbors es cur).filter (fun v => !visited.contains v)).flatMap
        (fun v => (simplePathsAux es arr fuel v (v :: visited)).map (fun p => cur :: p))

/-- Modelled from the spec: `networkx.algorithms.simple_paths.all_simple_paths`
is an external library routine (its source is not part of src/). Per the spec
(§4.2, §7) it "fails with `NodeNotFound` when either endpoint is absent from
the Graph" and otherwise yields the finite collection of all simple paths
between the endpoints (empty when they are disconnected). -/
def all_simple_paths (es : List Edge) (dep arr : String) :
    Except PyErr (List (List String)) :=
  if dep ∈ nodesOf es ∧ arr ∈ nodesOf es then
    .ok (simplePathsAux es arr (nodesOf es).length dep [dep])
  else .error .NodeNotFound

/-- One iteration of the hop loop of `find_feasible_paths`.  The state is
`(travel_days, stops, days)`; the hop is `(next_stop, travel_time)`.  The code
tests `travel_time <= self.autonomy` (the CONFIGURED autonomy `A`), appends the
stop and the cumulative day, and on `current_autonomy == 0` (i.e. `w = A`)
appends a forced refuel stop costing one extra day. -/
def walkHop (A : Nat) (st : Nat × List String × List Nat) (vw : String × Nat) :
    Nat × List String × List Nat :=
  if vw.2 ≤ A then
    let t := st.1 + vw.2
    let stops := st.2.1 ++ [vw.1]
    let days := st.2.2 ++ [t]
    if A - vw.2 = 0 then (t + 1, stops ++ [vw.1], days ++ [t + 1])
    else (t, stops, days)
  else st

/-- The hop list of a path: `zip(path[:-1], path[1:])` with each hop carrying
its destination and its weight in the graph. -/
def hopsOf (es : List Edge) (path : List String) : List (String × Nat) :=
  (path.zip path.tail).map (fun uv => (uv.2, weight es uv.1 uv.2))

/-- The body of the `for idx, path in enumerate(paths, 1)` loop of
`find_feasible_paths`: simulate one candidate path starting from
`stops = [departure]`, `days = [0]`, `travel_days = 0`. -/
def walkPath (es : List Edge) (A : Nat) (dep : String) (path : List String) : Itin :=
  ((hopsOf es path).foldl (walkHop A) (0, [dep], [0])).2

/-- Decimal digits of `n`, structurally recursive on a fuel argument
(`fuel > n` suffices). -/
def natDigitsAux : Nat → Nat → List Char
  | 0, _ => []
  | fuel + 1, n =>
    if n < 10 then [Char.ofNat (48 + n)]
    else natDigitsAux fuel (n / 10) ++ [Char.ofNat (48 + n % 10)]

/-- Python's `str(n)` for a natural number. -/
def natStr (n : Nat) : String :=
  ⟨natDigitsAux (n + 1) n⟩

/-- The itinerary identifier `f"path_{idx}"` / `'path_' + str(idx + 1)`. -/
def pathKey (n : Nat) : String :=
  "path_" ++ natStr n

/-- Python's `enumerate(l, i)`. -/
def enumFrom {α : Type} : Nat → List α → List (Nat × α)
  | _, [] => []
  | i, a :: l => (i, a) :: enumFrom (i + 1) l

/-- `MillenniumFalcon.find_feasible_paths` / `Millennium_falcon.find_feasible_paths`:
enumerate all simple paths (a `NodeNotFound` from the enumerator propagates to
the caller) and simulate each under the autonomy constraint, keyed `path_<n>`. -/
def find_feasible_paths (es : List Edge) (A : Nat) (dep arr : String) :
    Except PyErr (List (String × Itin)) :=
  match all_simple_paths es dep arr with
  | .error e => .error e
  | .ok ps => .ok ((enumFrom 1 ps).map (fun ip => (pathKey ip.1, walkPath es A dep ip.2)))

/-- `value[1][-1]`: the final day of an itinerary (`days` is never empty). -/
def lastDay (it : Itin) : Nat :=
  it.2.getLastD 0

/-- The dictionary comprehension of `find_acceptable_paths`: keep the feasible
itineraries whose final day is at or before the countdown. -/
def find_acceptable_of (cd : Nat) (feasible : List (String × Itin)) :
    List (String × Itin) :=
  feasible.filter (fun kv => lastDay kv.2 ≤ cd)

/-- `find_acceptable_paths`. -/
def find_acceptable_paths (es : List Edge) (A : Nat) (dep arr : String) (cd : Nat) :
    Except PyErr (List (String × Itin)) :=
  match find_feasible_paths es A dep arr with
  | .error e => .error e
  | .ok l => .ok (find_acceptable_of cd l)

/-- Python string repetition `s * n`. -/
def strRepeat (s : String) : Nat → String
  | 0 => ""
  | n + 1 => strRepeat s n ++ s

/-- The rested marker of the Giskard solution: `stop * rest` with `rest = 1`
(string repetition, hence the stop name itself). -/
def giskardMarker (s : String) : String :=
  strRepeat s 1

/-- The rested marker of the Millennium-falcon solution: the f-string
`f"{stop}*{rest}"` with `rest = 1`, i.e. the stop name followed by `*1`. -/
def mfMarker (s : String) : String :=
  s ++ "*" ++ natStr 1

/-- The variant identifier of the Giskard solution: `key + str(idx + 1)`. -/
def giskardAltKey (key : String) (i : Nat) : String :=
  key ++ natStr i

/-- The variant identifier of the Millennium-falcon solution: `f"{key}_{idx + 1}"`. -/
def mfAltKey (key : String) (i : Nat) : String :=
  key ++ "_" ++ natStr i

/-- The two points where the otherwise identical solutions differ. -/
structure Solution where
  marker : String → String
  altKey : String → Nat → String

/-- The Millennium-falcon solution's marker and identifier scheme. -/
def mfSolution : Solution :=
  ⟨mfMarker, mfAltKey⟩

/-- The Giskard solution's marker and identifier scheme. -/
def giskardSolution : Solution :=
  ⟨giskardMarker, giskardAltKey⟩

/-- Python's `l.insert(i, x)` (append when `i ≥ len(l)`). -/
def insertAt {α : Type} (l : List α) (i : Nat) (x : α) : List α :=
  l.take i ++ x :: l.drop i

/-- One rest variant, as built in the body of the
`for idx, stop in enumerate(unique_stops)` loop of `find_alternative_paths`:
insert the marker at position `idx + 1` of the stop list, insert
`day[idx] + 1` at position `idx + 1` of the day list, and add 1 to every later
day value. -/
def mkVariant (marker : String → String) (it : Itin) (idx : Nat) (stp : String) : Itin :=
  (insertAt it.1 (idx + 1) (marker stp),
   it.2.take (idx + 1) ++ (it.2.getD idx 0 + 1) :: (it.2.drop (idx + 1)).map (· + 1))

/-- The rest variants contributed by one acceptable itinerary: nothing unless
`countdown - day[-1] >= 1`; otherwise one variant per element of the
enumeration `enum` of `set(path[:-1])`, keyed by the solution's identifier
scheme. -/
def variantList (sol : Solution) (enum : List String → List String) (cd : Nat)
    (kv : String × Itin) : List (String × Itin) :=
  if 1 ≤ cd - lastDay kv.2 then
    (enumFrom 0 (enum kv.2.1.dropLast)).map
      (fun ix => (sol.altKey kv.1 (ix.1 + 1), mkVariant sol.marker kv.2 ix.1 ix.2))
  else []

/-- Python dict assignment `d[k] = v`: replace in place when the key exists,
append otherwise (CPython dicts preserve insertion order). -/
def dictInsert {α : Type} : List (String × α) → String → α → List (String × α)
  | [], k, v => [(k, v)]
  | p :: d, k, v => if p.1 = k then (p.1, v) :: d else p :: dictInsert d k v

/-- Sequential dict assignments (also the semantics of `{**a, **b}`). -/
def dictInsertMany {α : Type} (d : List (String × α)) (ps : List (String × α)) :
    List (String × α) :=
  ps.foldl (fun d p => dictInsert d p.1 p.2) d

/-- `find_alternative_paths` applied to the already-computed acceptable pool:
the `alternative_paths` dict filled by the nested loops. -/
def find_alternative_of (sol : Solution) (enum : List String → List String) (cd : Nat)
    (acceptable : List (String × Itin)) : List (String × Itin) :=
  dictInsertMany [] (acceptable.flatMap (variantList sol enum cd))

/-- `find_alternative_paths`. -/
def find_alternative_paths (sol : Solution) (enum : List String → List String)
    (es : List Edge) (A : Nat) (dep arr : String) (cd : Nat) :
    Except PyErr (List (String × Itin)) :=
  match find_acceptable_paths es A dep arr cd with
  | .error e => .error e
  | .ok l => .ok (find_alternative_of sol enum cd l)

/-- The encounter count of one itinerary: for every position `i`, one encounter
per bounty hunter with `bh["planet"] == path[i] and bh["day"] == days[i]`. -/
def countEncounters (bhs : List BountyHunter) (it : Itin) : Nat :=
  (it.1.zip it.2).foldl
    (fun k sd => k + (bhs.filter (fun b => b.planet == sd.1 && b.day == sd.2)).length) 0

/-- Python's `min(l)` (`none` models the `ValueError` on an empty list). -/
def listMin : List Nat → Option Nat
  | [] => none
  | a :: l => some (l.foldl Nat.min a)

/-- Python's `l.index(x)` (`none` models the `ValueError` when absent). -/
def pyIndex {α : Type} [DecidableEq α] (x : α) : List α → Option Nat
  | [] => none
  | a :: l => if a = x then some 0 else (pyIndex x l).map (· + 1)

/-- The odds computed from the minimum encounter count, exactly as in
`give_me_the_odds`: `100` when `min_encounters == 0`, else
`100 * (1 - prob)` with `prob = 0.1` accumulated over
`for i in range(1, min_encounters): prob += 9**i / 10**(i+1)`. -/
def oddsOf (k : Nat) : ℚ :=
  if k = 0 then 100
  else 100 * (1 - (List.range' 1 (k - 1)).foldl (fun p j => p + (9 : ℚ) ^ j / 10 ^ (j + 1)) (1 / 10))

/-- The scoring tail of `give_me_the_odds`: encounter counts for the merged
pool, `min_encounters = min(...)`, the winning stop list
`paths[encounters.index(min)]`, and the odds.  The error cases model the
`ValueError` / `IndexError` the Python builtins would raise. -/
def scorePool (bhs : List BountyHunter) (pool : List (String × Itin)) :
    Except PyErr (ℚ × List String) :=
  match listMin (pool.map (fun kv => countEncounters bhs kv.2)) with
  | none => .error .ValueError
  | some kmin =>
    match pyIndex kmin (pool.map (fun kv => countEncounters bhs kv.2)) with
    | none => .error .ValueError
    | some i =>
      match (pool.map (fun kv => kv.2.1))[i]? with
      | none => .error .IndexError
      | some p => .ok (oddsOf kmin, p)

/-- The merged candidate pool `{**acceptable_paths, **alternative_paths}`,
recomputed from the feasible pool exactly as `give_me_the_odds` does. -/
def allPool (sol : Solution) (enum : List String → List String) (cd : Nat)
    (feasible : List (String × Itin)) : List (String × Itin) :=
  dictInsertMany (find_acceptable_of cd feasible)
    (find_alternative_of sol enum cd (find_acceptable_of cd feasible))

/-- `give_me_the_odds`: return `(0, [])` when no feasible itinerary meets the
countdown, otherwise score the merged acceptable + alternative pool. -/
def give_me_the_odds (sol : Solution) (enum : List String → List String)
    (es : List Edge) (A : Nat) (dep arr : String) (cd : Nat)
    (bhs : List BountyHunter) : Except PyErr (ℚ × List String) :=
  match find_feasible_paths es A dep arr with
  | .error e => .error e
  | .ok feasible =>
    if (feasible.filter (fun kv => lastDay kv.2 ≤ cd)).isEmpty then .ok (0, [])
    else scorePool bhs (allPool sol enum cd feasible)

/-- A simulator following the SPEC's words of §4.3 literally ("If
`w > current_autonomy`: the hop is skipped"), i.e. with the hop test against
the carried remaining autonomy.  State: `(current_autonomy, travel_days,
stops, days)`.  Used only for comparison against the code's `walkPath`. -/
def walkHopSpec (A : Nat) (st : Nat × Nat × List String × List Nat)
    (vw : String × Nat) : Nat × Nat × List String × List Nat :=
  if vw.2 ≤ st.1 then
    let t := st.2.1 + vw.2
    let stops := st.2.2.1 ++ [vw.1]
    let days := st.2.2.2 ++ [t]
    if A - vw.2 = 0 then (A, t + 1, stops ++ [vw.1], days ++ [t + 1])
    else (A - vw.2, t, stops, days)
  else st

/-- The spec-text simulator run over a whole path (comparison target for the
claim that hops are gated by the REMAINING autonomy). -/
def walkPathSpec (es : List Edge) (A : Nat) (dep : String) (path : List String) : Itin :=
  ((hopsOf es path).foldl (walkHopSpec A) (A, 0, [dep], [0])).2.2

/-- The accept branch of the hop loop, with no feasibility test: used to state
which hops the code actually processes. -/
def walkHopAccept (A : Nat) (st : Nat × List String × List Nat) (vw : String × Nat) :
    Nat × List String × List Nat :=
  let t := st.1 + vw.2
  let stops := st.2.1 ++ [vw.1]
  let days := st.2.2 ++ [t]
  if A - vw.2 = 0 then (t + 1, stops ++ [vw.1], days ++ [t + 1])
  else (t, stops, days)

/-- The closed-form odds formula exactly as the spec states it (§4.6):
`100` when `k_min = 0`, else `100 * (1 - p)` with
`p = 0.1 + Σ_{i=1}^{k_min-1} 9^i / 10^(i+1)`. -/
def specOddsFormula (k : Nat) : ℚ :=
  if k = 0 then 100
  else 100 * (1 - (1 / 10 + ∑ i ∈ Finset.Icc 1 (k - 1), (9 : ℚ) ^ i / 10 ^ (i + 1)))

/-- A valid iteration order for Python's `set(l)`: some duplicate-free
enumeration of the elements of `l`. -/
def EnumSpec (enum : List String → List String) : Prop :=
  ∀ l : List String, (enum l).Nodup ∧ (∀ x ∈ enum l, x ∈ l) ∧ (∀ x ∈ l, x ∈ enum l)

/-- The invariants claimed for every produced itinerary: the day list starts at
0 and is non-decreasing, the two lists have equal length, and the stop list
starts at the departure. -/
def GoodItin (dep : String) (it : Itin) : Prop :=
  it.2.head? = some 0 ∧ List.Chain' (· ≤ ·) it.2 ∧
    it.1.length = it.2.length ∧ it.1.head? = some dep

/-! ### Helper lemmas: strings and decimal digits -/

lemma string_data_append (s t : String) : (s ++ t).data = s.data ++ t.data := rfl

lemma string_mk_inj {l l' : List Char} (h : String.mk l = String.mk l') : l = l' := by
  cases h
  rfl

lemma char_ofNat_digit_toNat {d : Nat} (hd : d < 10) : (Char.ofNat (48 + d)).toNat = 48 + d := by
  interval_cases d <;> rfl

lemma natDigitsAux_digit {fuel n : Nat} (hn : n < fuel) :
    ∀ c ∈ natDigitsAux fuel n, 48 ≤ c.toNat ∧ c.toNat ≤ 57 := by
  induction fuel generalizing n with
  | zero => omega
  | succ fuel ih =>
    intro c hc
    rw [natDigitsAux] at hc
    by_cases h10 : n < 10
    · rw [if_pos h10] at hc
      rcases List.mem_singleton.mp hc with rfl
      rw [char_ofNat_digit_toNat h10]
      omega
    · rw [if_neg h10] at hc
      rcases List.mem_append.mp hc with h | h
      · have hdiv : n / 10 < fuel := by
          have := Nat.div_lt_self (by omega : 0 < n) (by omega : 1 < 10)
          omega
        exact ih hdiv c h
      · rcases List.mem_singleton.mp h with rfl
        rw [char_ofNat_digit_toNat (Nat.mod_lt n (by omega))]
        have := Nat.mod_lt n (show 0 < 10 by omega)
        omega

lemma natDigitsAux_foldl {fuel n : Nat} (hn : n < fuel) (a : Nat) :
    (natDigitsAux fuel n).foldl (fun acc c => 10 * acc + (c.toNat - 48)) a
      = a * 10 ^ (natDigitsAux fuel n).length + n := by
  induction fuel generalizing n a with
  | zero => omega
  | succ fuel ih =>
    rw [natDigitsAux]
    by_cases h10 : n < 10
    · rw [if_pos h10]
      simp only [List.foldl_cons, List.foldl_nil, List.length_singleton]
      rw [char_ofNat_digit_toNat h10]
      omega
    · rw [if_neg h10]
      have hdiv : n / 10 < fuel := by
        have := Nat.div_lt_self (by omega : 0 < n) (by omega : 1 < 10)
        omega
      rw [List.foldl_append, ih hdiv a]
      simp only [List.foldl_cons, List.foldl_nil, List.length_append, List.length_singleton]
      rw [char_ofNat_digit_toNat (Nat.mod_lt n (by omega))]
      have hmod := Nat.div_add_mod n 10
      have hpow : 10 ^ ((natDigitsAux fuel (n / 10)).length + 1)
          = 10 ^ (natDigitsAux fuel (n / 10)).length * 10 := by
        rw [pow_succ]
      rw [hpow]
      have h48 : 48 + n % 10 - 48 = n % 10 := by omega
      rw [h48]
      ring_nf
      omega

lemma natStr_inj {m n : Nat} (h : natStr m = natStr n) : m = n := by
  have hd : natDigitsAux (m + 1) m = natDigitsAux (n + 1) n := string_mk_inj h
  have hm := natDigitsAux_foldl (Nat.lt_succ_self m) 0
  have hn := natDigitsAux_foldl (Nat.lt_succ_self n) 0
  rw [hd] at hm
  rw [hm] at hn
  omega

lemma natStr_no_underscore {n : Nat} : '_' ∉ (natStr n).data := by
  intro h
  have := natDigitsAux_digit (Nat.lt_succ_self n) _ h
  have h95 : ('_').toNat = 95 := rfl
  omega

lemma append_underscore_inj {s₁ t₁ s₂ t₂ : List Char}
    (h1 : '_' ∉ s₁) (h2 : '_' ∉ t₁)
    (h : s₁ ++ '_' :: s₂ = t₁ ++ '_' :: t₂) : s₁ = t₁ ∧ s₂ = t₂ := by
  induction s₁ generalizing t₁ with
  | nil =>
    cases t₁ with
    | nil => simpa using h
    | cons b t₁ =>
      simp only [List.nil_append, List.cons_append, List.cons.injEq] at h
      exact absurd (h.1 ▸ List.mem_cons_self b t₁) (by simpa [← h.1] using h2)
  | cons a s₁ ih =>
    cases t₁ with
    | nil =>
      simp only [List.cons_append, List.nil_append, List.cons.injEq] at h
      exact absurd (h.1 ▸ List.mem_cons_self a s₁) (by simpa [h.1] using h1)
    | cons b t₁ =>
      simp only [List.cons_append, List.cons.injEq] at h
      have := ih (fun hm => h1 (List.mem_cons_of_mem a hm))
        (fun hm => h2 (List.mem_cons_of_mem b hm)) h.2
      exact ⟨by rw [h.1, this.1], this.2⟩

lemma pathKey_data (n : Nat) : (pathKey n).data = "path_".data ++ (natStr n).data := rfl

lemma mfAltKey_data (k : String) (i : Nat) :
    (mfAltKey k i).data = k.data ++ '_' :: (natStr i).data := by
  show ((k ++ "_") ++ natStr i).data = _
  rw [string_data_append, string_data_append]
  simp

lemma pathKey_inj {m n : Nat} (h : pathKey m = pathKey n) : m = n := by
  have hd := congrArg String.data h
  rw [pathKey_data, pathKey_data] at hd
  exact natStr_inj (congrArg String.mk (List.append_cancel_left hd))

lemma mfAltKey_pathKey_ne (n i m : Nat) : mfAltKey (pathKey n) i ≠ pathKey m := by
  intro h
  have hd := congrArg String.data h
  rw [mfAltKey_data, pathKey_data, pathKey_data, List.append_assoc] at hd
  have h2 := List.append_cancel_left hd
  have : '_' ∈ (natStr m).data := by
    rw [← h2]
    exact List.mem_append_right _ (List.mem_cons_self _ _)
  exact natStr_no_underscore this

lemma mfAltKey_pathKey_inj {n i m j : Nat}
    (h : mfAltKey (pathKey n) i = mfAltKey (pathKey m) j) : n = m ∧ i = j := by
  have hd := congrArg String.data h
  rw [mfAltKey_data, mfAltKey_data, pathKey_data, pathKey_data,
    List.append_assoc, List.append_assoc] at hd
  have h2 := List.append_cancel_left hd
  have h3 := append_underscore_inj natStr_no_underscore natStr_no_underscore h2
  exact ⟨natStr_inj (congrArg String.mk h3.1), natStr_inj (congrArg String.mk h3.2)⟩

/-! ### Helper lemmas: dicts, enumerate, min, index -/

lemma mem_dictInsert {α : Type} {d : List (String × α)} {k : String} {v : α} {p : String × α}
    (h : p ∈ dictInsert d k v) : p ∈ d ∨ p = (k, v) := by
  induction d with
  | nil => simpa [dictInsert] using h
  | cons q d ih =>
    rw [dictInsert] at h
    by_cases hq : q.1 = k
    · rw [if_pos hq] at h
      rcases List.mem_cons.mp h with rfl | h
      · exact Or.inr (by rw [hq])
      · exact Or.inl (List.mem_cons_of_mem _ h)
    · rw [if_neg hq] at h
      rcases List.mem_cons.mp h with rfl | h
      · exact Or.inl (List.mem_cons_self _ _)
      · rcases ih h with h | h
        · exact Or.inl (List.mem_cons_of_mem _ h)
        · exact Or.inr h

lemma dictInsert_ne_nil {α : Type} (d : List (String × α)) (k : String) (v : α) :
    dictInsert d k v ≠ [] := by
  cases d with
  | nil => simp [dictInsert]
  | cons q d =>
    rw [dictInsert]
    split <;> simp

lemma mem_dictInsertMany {α : Type} {d ps : List (String × α)} {p : String × α}
    (h : p ∈ dictInsertMany d ps) : p ∈ d ∨ p ∈ ps := by
  induction ps generalizing d with
  | nil => exact Or.inl h
  | cons q ps ih =>
    rcases ih h with h | h
    · rcases mem_dictInsert h with h | h
      · exact Or.inl h
      · subst h
        exact Or.inr (by simp)
    · exact Or.inr (List.mem_cons_of_mem _ h)

lemma dictInsertMany_ne_nil {α : Type} {d : List (String × α)} (ps : List (String × α))
    (h : d ≠ []) : dictInsertMany d ps ≠ [] := by
  induction ps generalizing d with
  | nil => exact h
  | cons q ps ih => exact ih (dictInsert_ne_nil d q.1 q.2)

lemma dictInsert_fresh {α : Type} {d : List (String × α)} {k : String} {v : α}
    (h : ∀ q ∈ d, q.1 ≠ k) : dictInsert d k v = d ++ [(k, v)] := by
  induction d with
  | nil => rfl
  | cons q d ih =>
    rw [dictInsert, if_neg (h q (List.mem_cons_self q d)),
      ih (fun q' hq' => h q' (List.mem_cons_of_mem q hq'))]
    rfl

lemma dictInsertMany_length {α : Type} (ps : List (String × α)) :
    ∀ d : List (String × α), (d.map Prod.fst ++ ps.map Prod.fst).Nodup →
      (dictInsertMany d ps).length = d.length + ps.length := by
  induction ps with
  | nil => intro d _; simp [dictInsertMany]
  | cons q ps ih =>
    intro d hnd
    have hsteps : dictInsertMany d (q :: ps) = dictInsertMany (dictInsert d q.1 q.2) ps := rfl
    have hfresh : ∀ p ∈ d, p.1 ≠ q.1 := by
      intro p hp heq
      rcases List.nodup_append.mp hnd with ⟨_, _, hdisj⟩
      exact hdisj (List.mem_map_of_mem Prod.fst hp)
        (by rw [List.map_cons]; exact heq ▸ List.mem_cons_self _ _)
    rw [hsteps, dictInsert_fresh hfresh]
    have hnd' : (((d ++ [(q.1, q.2)]).map Prod.fst) ++ ps.map Prod.fst).Nodup := by
      rw [List.map_append, List.append_assoc]
      simpa using hnd
    rw [ih _ hnd']
    simp
    omega

lemma enumFrom_length {α : Type} (s : Nat) (l : List α) :
    (enumFrom s l).length = l.length := by
  induction l generalizing s with
  | nil => rfl
  | cons a l ih => simp [enumFrom, ih]

lemma enumFrom_getElem? {α : Type} (s : Nat) (l : List α) (k : Nat) :
    (enumFrom s l)[k]? = (l[k]?).map (fun x => (s + k, x)) := by
  induction l generalizing s k with
  | nil => simp [enumFrom]
  | cons a l ih =>
    cases k with
    | zero => simp [enumFrom]
    | succ k =>
      rw [enumFrom]
      simp only [List.getElem?_cons_succ]
      rw [ih (s + 1) k]
      cases l[k]? <;> simp <;> omega

lemma mem_enumFrom {α : Type} {s : Nat} {l : List α} {p : Nat × α}
    (h : p ∈ enumFrom s l) : ∃ j, j < l.length ∧ p.1 = s + j ∧ l[j]? = some p.2 := by
  induction l generalizing s with
  | nil => simp [enumFrom] at h
  | cons a l ih =>
    rw [enumFrom] at h
    rcases List.mem_cons.mp h with rfl | h
    · exact ⟨0, by simp⟩
    · rcases ih h with ⟨j, hj, hp1, hp2⟩
      exact ⟨j + 1, by simp; omega, by omega, by simpa using hp2⟩

lemma foldl_min_mem (l : List Nat) (a : Nat) : l.foldl Nat.min a ∈ a :: l := by
  induction l generalizing a with
  | nil => simp
  | cons b l ih =>
    have h := ih (Nat.min a b)
    rcases List.mem_cons.mp h with h | h
    · have hm : Nat.min a b = a ∨ Nat.min a b = b := by
        rcases Nat.le_total a b with hab | hab
        · exact Or.inl (Nat.min_eq_left hab)
        · exact Or.inr (Nat.min_eq_right hab)
      rw [List.foldl_cons, h]
      rcases hm with hm | hm <;> rw [hm] <;> simp
    · exact List.mem_cons_of_mem _ (List.mem_cons_of_mem _ h)

lemma listMin_eq_some {l : List Nat} (h : l ≠ []) : ∃ m, listMin l = some m := by
  cases l with
  | nil => exact absurd rfl h
  | cons a l => exact ⟨_, rfl⟩

lemma listMin_mem {l : List Nat} {m : Nat} (h : listMin l = some m) : m ∈ l := by
  cases l with
  | nil => simp [listMin] at h
  | cons a l =>
    rw [listMin, Option.some.injEq] at h
    exact h ▸ foldl_min_mem l a

lemma pyIndex_of_mem {α : Type} [DecidableEq α] {x : α} {l : List α} (h : x ∈ l) :
    ∃ i, pyIndex x l = some i ∧ i < l.length := by
  induction l with
  | nil => simp at h
  | cons a l ih =>
    by_cases ha : a = x
    · exact ⟨0, by rw [pyIndex, if_pos ha], by simp⟩
    · rcases ih (by rcases List.mem_cons.mp h with rfl | h; exact absurd rfl ha; exact h) with
        ⟨i, hi, hlt⟩
      exact ⟨i + 1, by rw [pyIndex, if_neg ha, hi]; rfl, by simp; omega⟩

/-! ### Helper lemmas: the feasibility simulator -/

/-- The loop invariant of the hop loop: the day list starts at 0, is
non-decreasing, tracks `travel_days` at its end, and is parallel to the stop
list, which starts at the departure. -/
def WalkInv (dep : String) (st : Nat × List String × List Nat) : Prop :=
  st.2.2.head? = some 0 ∧ List.Chain' (· ≤ ·) st.2.2 ∧
    st.2.1.length = st.2.2.length ∧ st.2.1.head? = some dep ∧
    st.2.2.getLast? = some st.1

lemma head?_append_left {α : Type} (l l' : List α) (h : l ≠ []) :
    (l ++ l').head? = l.head? := by
  cases l with
  | nil => exact absurd rfl h
  | cons a l => rfl

lemma chain'_append_singleton {l : List Nat} {a x : Nat}
    (hc : List.Chain' (· ≤ ·) l) (hl : l.getLast? = some a) (hax : a ≤ x) :
    List.Chain' (· ≤ ·) (l ++ [x]) := by
  rw [List.chain'_append]
  refine ⟨hc, List.chain'_singleton x, ?_⟩
  intro b hb y hy
  simp only [List.head?_cons, Option.mem_def, Option.some.injEq] at hy
  rw [hl] at hb
  simp only [Option.mem_def, Option.some.injEq] at hb
  omega

lemma ne_nil_of_getLast?_eq_some {α : Type} {l : List α} {a : α}
    (h : l.getLast? = some a) : l ≠ [] := by
  intro h0
  rw [h0] at h
  simp at h

lemma ne_nil_of_head?_eq_some {α : Type} {l : List α} {a : α}
    (h : l.head? = some a) : l ≠ [] := by
  intro h0
  rw [h0] at h
  simp at h

lemma walkInv_append (dep : String) (t w : Nat) (stops : List String) (days : List Nat)
    (v : String) (h : WalkInv dep (t, stops, days)) :
    WalkInv dep (t + w, stops ++ [v], days ++ [t + w]) := by
  obtain ⟨h0, hc, hlen, hdep, hlast⟩ := h
  have hdne : days ≠ [] := ne_nil_of_getLast?_eq_some hlast
  have hsne : stops ≠ [] := ne_nil_of_head?_eq_some hdep
  refine ⟨?_, ?_, ?_, ?_, ?_⟩
  · rw [head?_append_left _ _ hdne]; exact h0
  · exact chain'_append_singleton hc hlast (Nat.le_add_right t w)
  · dsimp only at hlen ⊢
    simp only [List.length_append, List.length_singleton]
    omega
  · rw [head?_append_left _ _ hsne]; exact hdep
  · exact List.getLast?_concat _

lemma walkHop_inv (A : Nat) (dep : String) (st : Nat × List String × List Nat)
    (vw : String × Nat) (h : WalkInv dep st) : WalkInv dep (walkHop A st vw) := by
  obtain ⟨t, stops, days⟩ := st
  rw [walkHop]
  by_cases hw : vw.2 ≤ A
  · rw [if_pos hw]
    by_cases hz : A - vw.2 = 0
    · simp only [if_pos hz]
      have h1 := walkInv_append dep t vw.2 stops days vw.1 h
      have h2 := walkInv_append dep (t + vw.2) 1 (stops ++ [vw.1]) (days ++ [t + vw.2]) vw.1 h1
      exact h2
    · simp only [if_neg hz]
      exact walkInv_append dep t vw.2 stops days vw.1 h
  · rw [if_neg hw]
    exact h

lemma foldl_walkHop_inv (A : Nat) (dep : String) (hops : List (String × Nat)) :
    ∀ st, WalkInv dep st → WalkInv dep (hops.foldl (walkHop A) st) := by
  induction hops with
  | nil => intro st h; exact h
  | cons vw hops ih =>
    intro st h
    exact ih _ (walkHop_inv A dep st vw h)

lemma walkInv_init (dep : String) : WalkInv dep (0, [dep], [0]) := by
  refine ⟨rfl, List.chain'_singleton 0, rfl, rfl, rfl⟩

lemma walkPath_good (es : List Edge) (A : Nat) (dep : String) (path : List String) :
    GoodItin dep (walkPath es A dep path) := by
  have h := foldl_walkHop_inv A dep (hopsOf es path) _ (walkInv_init dep)
  exact ⟨h.1, h.2.1, h.2.2.1, h.2.2.2.1⟩

lemma foldl_walkHop_filter (A : Nat) (hops : List (String × Nat)) :
    ∀ st, hops.foldl (walkHop A) st
      = (hops.filter (fun vw => vw.2 ≤ A)).foldl (walkHopAccept A) st := by
  induction hops with
  | nil => intro st; rfl
  | cons vw hops ih =>
    intro st
    rw [List.foldl_cons, List.filter_cons]
    by_cases hw : vw.2 ≤ A
    · have hd : (decide (vw.2 ≤ A)) = true := by simpa using hw
      rw [if_pos hd, List.foldl_cons, ih]
      have : walkHop A st vw = walkHopAccept A st vw := by
        rw [walkHop, if_pos hw]; rfl
      rw [this]
    · have hd : ¬((decide (vw.2 ≤ A)) = true) := by simpa using hw
      rw [if_neg hd, ih]
      have : walkHop A st vw = st := by rw [walkHop, if_neg hw]
      rw [this]

/-! ### Helper lemmas: rest variants preserve the itinerary invariants -/

lemma chain'_insert_shift {days : List Nat} {idx : Nat}
    (hc : List.Chain' (· ≤ ·) days) (hidx : idx < days.length) :
    List.Chain' (· ≤ ·)
      (days.take (idx + 1) ++ (days.getD idx 0 + 1) :: (days.drop (idx + 1)).map (· + 1)) := by
  have hp : List.Pairwise (· ≤ ·) days := List.chain'_iff_pairwise.mp hc
  have hpg := List.pairwise_iff_getElem.mp hp
  have hm : days.getD idx 0 = days[idx] := List.getD_eq_getElem days 0 hidx
  have hle : ∀ i, i < idx + 1 → ∀ (hi : i < days.length), days[i] ≤ days[idx] := by
    intro i hi hilen
    by_cases hii : i = idx
    · subst hii; exact Nat.le_refl _
    · exact hpg i idx hilen hidx (by omega)
  have hge : ∀ j, ∀ (hj : idx + 1 + j < days.length), days[idx] ≤ days[idx + 1 + j] := by
    intro j hj
    exact hpg idx (idx + 1 + j) hidx hj (by omega)
  rw [List.chain'_iff_pairwise, List.pairwise_append]
  refine ⟨List.Pairwise.sublist (List.take_sublist _ _) hp, ?_, ?_⟩
  · rw [List.pairwise_cons]
    constructor
    · intro y hy
      rcases List.mem_map.mp hy with ⟨z, hz, rfl⟩
      rcases List.mem_iff_getElem.mp hz with ⟨j, hj, rfl⟩
      rw [List.getElem_drop]
      have hjl : idx + 1 + j < days.length := by
        have h2 := hj
        rw [List.length_drop] at h2
        omega
      have := hge j hjl
      rw [hm]
      omega
    · exact List.Pairwise.map _ (fun a b hab => by omega)
        (List.Pairwise.sublist (List.drop_sublist _ _) hp)
  · intro a ha b hb
    rcases List.mem_iff_getElem.mp ha with ⟨i, hi, rfl⟩
    have hil : i < idx + 1 := by
      have h2 := hi
      rw [List.length_take] at h2
      omega
    have hilen : i < days.length := by
      have h2 := hi
      rw [List.length_take] at h2
      omega
    rw [List.getElem_take]
    rcases List.mem_cons.mp hb with rfl | hbm
    · rw [hm]
      have := hle i hil hilen
      omega
    · rcases List.mem_map.mp hbm with ⟨z, hz, rfl⟩
      rcases List.mem_iff_getElem.mp hz with ⟨j, hj, rfl⟩
      rw [List.getElem_drop]
      have hjl : idx + 1 + j < days.length := by
        have h2 := hj
        rw [List.length_drop] at h2
        omega
      have h3 := hge j hjl
      have h4 := hle i hil hilen
      omega

lemma insertAt_length {α : Type} (l : List α) (i : Nat) (x : α) (h : i ≤ l.length) :
    (insertAt l i x).length = l.length + 1 := by
  rw [insertAt]
  simp only [List.length_append, List.length_cons, List.length_take, List.length_drop]
  rw [min_eq_left h]
  omega

lemma mkVariant_good (marker : String → String) (dep : String) (it : Itin)
    (idx : Nat) (stp : String) (hg : GoodItin dep it)
    (hidx : idx + 1 ≤ it.2.length) :
    GoodItin dep (mkVariant marker it idx stp) ∧
      (mkVariant marker it idx stp).2.length = it.2.length + 1 ∧
      (mkVariant marker it idx stp).1.length = it.1.length + 1 := by
  obtain ⟨h0, hc, hlen, hdep⟩ := hg
  have hdays : ∃ drest, it.2 = 0 :: drest := by
    cases hd : it.2 with
    | nil => rw [hd] at h0; simp at h0
    | cons d0 drest =>
      rw [hd] at h0
      simp only [List.head?_cons, Option.some.injEq] at h0
      exact ⟨drest, by rw [h0]⟩
  have hstops : ∃ srest, it.1 = dep :: srest := by
    cases hs : it.1 with
    | nil => rw [hs] at hdep; simp at hdep
    | cons s0 srest =>
      rw [hs] at hdep
      simp only [List.head?_cons, Option.some.injEq] at hdep
      exact ⟨srest, by rw [hdep]⟩
  obtain ⟨drest, hd⟩ := hdays
  obtain ⟨srest, hs⟩ := hstops
  have hlen2 : (mkVariant marker it idx stp).2.length = it.2.length + 1 := by
    rw [mkVariant]
    simp only [List.length_append, List.length_cons, List.length_take, List.length_drop,
      List.length_map]
    rw [min_eq_left hidx]
    omega
  have hlen1 : (mkVariant marker it idx stp).1.length = it.1.length + 1 := by
    rw [mkVariant]
    exact insertAt_length it.1 (idx + 1) (marker stp) (by omega)
  refine ⟨⟨?_, ?_, ?_, ?_⟩, hlen2, hlen1⟩
  · rw [mkVariant]
    dsimp only
    rw [hd, List.take_succ_cons, List.cons_append, List.head?_cons]
  · rw [mkVariant]
    dsimp only
    exact chain'_insert_shift hc (by omega)
  · rw [hlen1, hlen2, hlen]
  · rw [mkVariant]
    dsimp only
    rw [hs, insertAt, List.take_succ_cons]
    rfl

lemma variantList_good {sol : Solution} {enum : List String → List String} {cd : Nat}
    {kv p : String × Itin} {dep : String}
    (hnd : (enum kv.2.1.dropLast).Nodup)
    (hsub : ∀ x ∈ enum kv.2.1.dropLast, x ∈ kv.2.1.dropLast)
    (hg : GoodItin dep kv.2) (hp : p ∈ variantList sol enum cd kv) :
    GoodItin dep p.2 ∧ p.2.2.length = kv.2.2.length + 1 ∧
      p.2.1.length = kv.2.1.length + 1 := by
  rw [variantList] at hp
  by_cases hrest : 1 ≤ cd - lastDay kv.2
  · rw [if_pos hrest] at hp
    rcases List.mem_map.mp hp with ⟨ix, hmem, rfl⟩
    rcases mem_enumFrom hmem with ⟨j, hj, hix1, _⟩
    have henl : (enum kv.2.1.dropLast).length ≤ kv.2.1.dropLast.length :=
      (List.Nodup.subperm hnd hsub).length_le
    have hdll : kv.2.1.dropLast.length = kv.2.1.length - 1 := List.length_dropLast _
    have hlenp : 0 < kv.2.1.length := by
      have := ne_nil_of_head?_eq_some hg.2.2.2
      exact List.length_pos.mpr this
    have hidx : ix.1 + 1 ≤ kv.2.2.length := by
      have hlen := hg.2.2.1
      omega
    exact mkVariant_good sol.marker dep kv.2 ix.1 ix.2 hg hidx
  · rw [if_neg hrest] at hp
    simp at hp

lemma mem_find_alternative_of {sol : Solution} {enum : List String → List String}
    {cd : Nat} {acceptable : List (String × Itin)} {p : String × Itin}
    (hp : p ∈ find_alternative_of sol enum cd acceptable) :
    ∃ kv ∈ acceptable, p ∈ variantList sol enum cd kv := by
  rw [find_alternative_of] at hp
  rcases mem_dictInsertMany hp with h | h
  · simp at h
  · exact List.mem_flatMap.mp h

lemma find_feasible_good {es : List Edge} {A : Nat} {dep arr : String}
    {l : List (String × Itin)} (hfeas : find_feasible_paths es A dep arr = .ok l) :
    ∀ kv ∈ l, GoodItin dep kv.2 := by
  rw [find_feasible_paths] at hfeas
  cases hasp : all_simple_paths es dep arr with
  | error e =>
    rw [hasp] at hfeas
    cases hfeas
  | ok ps =>
    rw [hasp] at hfeas
    simp only [Except.ok.injEq] at hfeas
    subst hfeas
    intro kv hkv
    rcases List.mem_map.mp hkv with ⟨ip, _, rfl⟩
    exact walkPath_good es A dep ip.2

/-! ### Helper lemmas: the scorer and the odds formula -/

lemma scorePool_ok (bhs : List BountyHunter) (pool : List (String × Itin))
    (h : pool ≠ []) :
    ∃ kmin p, scorePool bhs pool = .ok (oddsOf kmin, p) ∧
      listMin (pool.map (fun kv => countEncounters bhs kv.2)) = some kmin := by
  have hks : pool.map (fun kv => countEncounters bhs kv.2) ≠ [] := by
    intro h0
    exact h (List.map_eq_nil_iff.mp h0)
  obtain ⟨kmin, hmin⟩ := listMin_eq_some hks
  have hmem : kmin ∈ pool.map (fun kv => countEncounters bhs kv.2) := listMin_mem hmin
  obtain ⟨i, hidx, hlt⟩ := pyIndex_of_mem hmem
  have hlt2 : i < (pool.map (fun kv => kv.2.1)).length := by
    rw [List.length_map]
    rw [List.length_map] at hlt
    exact hlt
  refine ⟨kmin, (pool.map (fun kv => kv.2.1))[i], ?_, hmin⟩
  rw [scorePool, hmin]
  simp only [hidx, List.getElem?_eq_getElem hlt2]

lemma foldl_add_eq_sum (f : Nat → ℚ) (c : ℚ) (m : Nat) :
    (List.range' 1 m).foldl (fun p j => p + f j) c = c + ∑ i ∈ Finset.Icc 1 m, f i := by
  induction m with
  | zero => simp
  | succ m ih =>
    rw [List.range'_concat, List.foldl_append, ih, List.foldl_cons, List.foldl_nil,
      Finset.sum_Icc_succ_top (by omega : 1 ≤ m + 1)]
    have h1 : 1 + 1 * m = m + 1 := by omega
    rw [h1]
    ring

lemma oddsOf_eq_spec (k : Nat) : oddsOf k = specOddsFormula k := by
  rw [oddsOf, specOddsFormula]
  by_cases hk : k = 0
  · rw [if_pos hk, if_pos hk]
  · rw [if_neg hk, if_neg hk,
      foldl_add_eq_sum (fun j => (9 : ℚ) ^ j / 10 ^ (j + 1)) (1 / 10) (k - 1)]

lemma specOddsFormula_zero : specOddsFormula 0 = 100 := by
  simp [specOddsFormula]

lemma specOddsFormula_one : specOddsFormula 1 = 90 := by
  rw [specOddsFormula, if_neg (by omega : ¬(1 = 0))]
  norm_num

lemma specOddsFormula_two : specOddsFormula 2 = 81 := by
  rw [specOddsFormula, if_neg (by omega : ¬(2 = 0))]
  norm_num

/-! ### Helper lemmas: the top-level pipeline -/

lemma filter_not_isEmpty_of_mem {l : List (String × Itin)} {cd : Nat}
    (hex : ∃ kv ∈ l, lastDay kv.2 ≤ cd) :
    (l.filter (fun kv => lastDay kv.2 ≤ cd)).isEmpty = false := by
  rcases hex with ⟨kv, hkv, hle⟩
  have hmem : kv ∈ l.filter (fun kv => lastDay kv.2 ≤ cd) :=
    List.mem_filter.mpr ⟨hkv, by simpa using hle⟩
  cases hf : l.filter (fun kv => lastDay kv.2 ≤ cd) with
  | nil => rw [hf] at hmem; simp at hmem
  | cons a t => rfl

lemma allPool_ne_nil {sol : Solution} {enum : List String → List String} {cd : Nat}
    {l : List (String × Itin)} (hex : ∃ kv ∈ l, lastDay kv.2 ≤ cd) :
    allPool sol enum cd l ≠ [] := by
  rcases hex with ⟨kv, hkv, hle⟩
  have hacc : find_acceptable_of cd l ≠ [] := by
    intro h0
    rw [find_acceptable_of] at h0
    rw [List.filter_eq_nil_iff] at h0
    exact h0 kv hkv (by simpa using hle)
  exact dictInsertMany_ne_nil _ hacc

lemma give_me_the_odds_score {sol : Solution} {enum : List String → List String}
    {es : List Edge} {A : Nat} {dep arr : String} {cd : Nat} {bhs : List BountyHunter}
    {l : List (String × Itin)}
    (hfeas : find_feasible_paths es A dep arr = .ok l)
    (hex : ∃ kv ∈ l, lastDay kv.2 ≤ cd) :
    give_me_the_odds sol enum es A dep arr cd bhs = scorePool bhs (allPool sol enum cd l) := by
  rw [give_me_the_odds, hfeas]
  simp only [filter_not_isEmpty_of_mem hex, Bool.false_eq_true, if_false]

/-! ### Claim C1 -/

/-- C1, counterexample.  The claim says a hop is skipped exactly when its
weight exceeds the REMAINING `current_autonomy` at the moment of the hop.  On
the graph A-B (weight 3), B-C (weight 2) with configured autonomy 4, after the
accepted hop A→B the remaining autonomy is 1, so the claim would skip the hop
B→C (weight 2 > 1) — as the literal spec-text simulator `walkPathSpec` indeed
does.  The code accepts it, because its test compares against the configured
autonomy (`travel_time <= self.autonomy`). -/
theorem walk_uses_configured_not_remaining_autonomy_cex :
    walkPath [⟨"A", "B", 3⟩, ⟨"B", "C", 2⟩] 4 "A" ["A", "B", "C"]
        = (["A", "B", "C"], [0, 3, 5]) ∧
      walkPathSpec [⟨"A", "B", 3⟩, ⟨"B", "C", 2⟩] 4 "A" ["A", "B", "C"]
        = (["A", "B"], [0, 3]) ∧
      walkPath [⟨"A", "B", 3⟩, ⟨"B", "C", 2⟩] 4 "A" ["A", "B", "C"]
        ≠ walkPathSpec [⟨"A", "B", 3⟩, ⟨"B", "C", 2⟩] 4 "A" ["A", "B", "C"] :=
  ⟨by decide, by decide, by decide⟩

/-- C1, amended: a hop is skipped by the Feasibility Simulator exactly when its
weight exceeds the CONFIGURED autonomy (not the remaining autonomy, which is
recomputed as `autonomy - w` after every accepted hop and consulted only for
the forced-refuel test): the simulation of any path equals the unconditional
processing of precisely those hops whose weight is at most the configured
autonomy, so every travel_time consumed in an accepted hop is at most the
configured autonomy. -/
theorem walk_processes_exactly_hops_within_configured_autonomy
    (es : List Edge) (A : Nat) (dep : String) (path : List String) :
    walkPath es A dep path
      = (((hopsOf es path).filter (fun vw => vw.2 ≤ A)).foldl
          (walkHopAccept A) (0, [dep], [0])).2 := by
  rw [walkPath, foldl_walkHop_filter]

/-! ### Claim C3 -/

/-- C3 (a code bug in the Millennium-falcon solution).  In the Giskard
solution the rested marker is `stop * rest` with `rest = 1`, i.e. the planet
name itself, so a sighting at (planet, rest day) is counted — as the claim
states.  The Millennium-falcon solution transliterated this to the f-string
`f"{stop}*{rest}"`, producing `"A*1"` for planet `"A"`: the marker no longer
carries the planet name, and the sighting ("A", 1) on the rest day of the
variant of itinerary (["A","B"], [0,1]) is counted by the Giskard marker (1
encounter) but missed by the Millennium-falcon marker (0 encounters). -/
theorem rested_marker_matching_eval :
    (∀ s : String, giskardMarker s = s) ∧
      mfMarker "A" ≠ "A" ∧
      countEncounters [⟨"A", 1⟩] (mkVariant giskardMarker (["A", "B"], [0, 1]) 0 "A") = 1 ∧
      countEncounters [⟨"A", 1⟩] (mkVariant mfMarker (["A", "B"], [0, 1]) 0 "A") = 0 :=
  ⟨fun _ => rfl, by decide, by decide, by decide⟩

/-! ### Claim C6 -/

/-- C6: whenever no feasible itinerary has a final day at or before the
countdown (in particular when the endpoints are connected by no path at all,
so that the feasible pool is empty), `give_me_the_odds` returns the degenerate
success value `(0, [])` instead of failing. -/
theorem no_deadline_path_yields_zero_odds (sol : Solution)
    (enum : List String → List String) (es : List Edge) (A : Nat) (dep arr : String)
    (cd : Nat) (bhs : List BountyHunter) (l : List (String × Itin))
    (hfeas : find_feasible_paths es A dep arr = .ok l)
    (hall : ∀ kv ∈ l, cd < lastDay kv.2) :
    give_me_the_odds sol enum es A dep arr cd bhs = .ok (0, []) := by
  rw [give_me_the_odds, hfeas]
  have hemp : l.filter (fun kv => lastDay kv.2 ≤ cd) = [] := by
    rw [List.filter_eq_nil_iff]
    intro kv hkv
    simp only [decide_eq_true_eq]
    have := hall kv hkv
    omega
  simp [hemp]

/-- C6, witness: on the graph with edges A-B and C-D (so A and C are both
present but disconnected), the odds are `(0, [])`. -/
theorem no_deadline_path_yields_zero_odds_witness :
    give_me_the_odds mfSolution (fun l => l.dedup) [⟨"A", "B", 1⟩, ⟨"C", "D", 1⟩]
      1 "A" "C" 5 [] = .ok (0, []) :=
  no_deadline_path_yields_zero_odds mfSolution (fun l => l.dedup) _ 1 "A" "C" 5 [] []
    (by decide) (by intro kv hkv; simp at hkv)

/-! ### Claim C7 -/

/-- C7: path enumeration — and with it `find_feasible_paths`, which surfaces
the error unhandled — raises `NodeNotFound` exactly when the departure or the
arrival node is absent from the built graph; when both are present it returns
normally (even if the graph is disconnected). -/
theorem node_not_found_iff_endpoint_missing (es : List Edge) (A : Nat)
    (dep arr : String) :
    (find_feasible_paths es A dep arr = .error .NodeNotFound ↔
      ¬(dep ∈ nodesOf es ∧ arr ∈ nodesOf es)) ∧
    ((dep ∈ nodesOf es ∧ arr ∈ nodesOf es) →
      ∃ l, find_feasible_paths es A dep arr = .ok l) := by
  have hunf : find_feasible_paths es A dep arr =
      (if dep ∈ nodesOf es ∧ arr ∈ nodesOf es then
        Except.ok ((enumFrom 1 (simplePathsAux es arr (nodesOf es).length dep [dep])).map
          (fun ip => (pathKey ip.1, walkPath es A dep ip.2)))
      else Except.error PyErr.NodeNotFound) := by
    rw [find_feasible_paths, all_simple_paths]
    by_cases h : dep ∈ nodesOf es ∧ arr ∈ nodesOf es
    · rw [if_pos h, if_pos h]
    · rw [if_neg h, if_neg h]
  rw [hunf]
  by_cases h : dep ∈ nodesOf es ∧ arr ∈ nodesOf es
  · rw [if_pos h]
    exact ⟨⟨fun he => Except.noConfusion he, fun hn => absurd h hn⟩, fun _ => ⟨_, rfl⟩⟩
  · rw [if_neg h]
    exact ⟨⟨fun _ => h, fun _ => rfl⟩, fun hc => absurd hc h⟩

/-- C7, witness: with edges A-B and C-D, asking for a path from the absent
node X raises `NodeNotFound`, while the disconnected (but present) pair A, C
enumerates without an error. -/
theorem node_not_found_iff_endpoint_missing_witness :
    find_feasible_paths [⟨"A", "B", 1⟩, ⟨"C", "D", 1⟩] 1 "X" "A"
        = .error .NodeNotFound ∧
      ∃ l, find_feasible_paths [⟨"A", "B", 1⟩, ⟨"C", "D", 1⟩] 1 "A" "C" = .ok l :=
  ⟨(node_not_found_iff_endpoint_missing [⟨"A", "B", 1⟩, ⟨"C", "D", 1⟩] 1 "X" "A").1.mpr
      (by decide),
    (node_not_found_iff_endpoint_missing [⟨"A", "B", 1⟩, ⟨"C", "D", 1⟩] 1 "A" "C").2
      (by decide)⟩

/-! ### Claim C10 -/

/-- C10: on the graph A-B (weight 1), B-C (weight 5) with autonomy 1,
departure A, arrival C, countdown 10 and no sightings, the only candidate path
loses its final hop to the autonomy test, yet the truncated itinerary
(["A","B","B"], final day 2) passes the deadline filter and is returned as the
winner: `give_me_the_odds` yields a non-empty optimal stop sequence that does
not end at the arrival node. -/
theorem truncated_itinerary_can_win :
    give_me_the_odds mfSolution (fun l => l.dedup) [⟨"A", "B", 1⟩, ⟨"B", "C", 5⟩]
        1 "A" "C" 10 [] = .ok (100, ["A", "B", "B"]) ∧
      (["A", "B", "B"] : List String) ≠ [] ∧
      (["A", "B", "B"] : List String).getLast? ≠ some "C" :=
  ⟨by decide, by decide, by decide⟩

/-! ### Claim C9 -/

lemma enumSpec_dedup : EnumSpec (fun l => l.dedup) := fun l =>
  ⟨List.nodup_dedup l, fun _ hx => List.dedup_subset l hx, fun _ hx => List.mem_dedup.mpr hx⟩

/-- C9: whenever the early-return guard of `give_me_the_odds` does not fire
(some feasible itinerary has final day at or before the countdown), the
recomputed merged pool of acceptable and alternative itineraries is non-empty,
and the subsequent minimum / index-lookup computation succeeds: the call
returns an `ok` result rather than an internal `ValueError`/`IndexError`. -/
theorem nonempty_guard_implies_scorer_success (sol : Solution)
    (enum : List String → List String) (es : List Edge) (A : Nat) (dep arr : String)
    (cd : Nat) (bhs : List BountyHunter) (l : List (String × Itin))
    (hfeas : find_feasible_paths es A dep arr = .ok l)
    (hex : ∃ kv ∈ l, lastDay kv.2 ≤ cd) :
    allPool sol enum cd l ≠ [] ∧
      ∃ r, give_me_the_odds sol enum es A dep arr cd bhs = .ok r := by
  refine ⟨allPool_ne_nil hex, ?_⟩
  obtain ⟨kmin, p, hsc, _⟩ := scorePool_ok bhs (allPool sol enum cd l) (allPool_ne_nil hex)
  exact ⟨(oddsOf kmin, p), by rw [give_me_the_odds_score hfeas hex, hsc]⟩

/-- C9, witness: on the single-edge graph A-B with autonomy 1 and countdown 2
the guard does not fire and the scorer succeeds. -/
theorem nonempty_guard_implies_scorer_success_witness :
    allPool mfSolution (fun l => l.dedup) 2 [("path_1", (["A", "B", "B"], [0, 1, 2]))] ≠ [] ∧
      ∃ r, give_me_the_odds mfSolution (fun l => l.dedup) [⟨"A", "B", 1⟩] 1 "A" "B" 2 []
        = .ok r :=
  nonempty_guard_implies_scorer_success mfSolution (fun l => l.dedup) [⟨"A", "B", 1⟩]
    1 "A" "B" 2 [] [("path_1", (["A", "B", "B"], [0, 1, 2]))] (by decide)
    ⟨("path_1", (["A", "B", "B"], [0, 1, 2])), by decide, by decide⟩

/-! ### Claim C2 -/

/-- C2: whenever the candidate pool is non-empty (the guard does not fire),
`give_me_the_odds` returns exactly the spec's closed-form odds at the minimum
encounter count `k_min` of the merged pool: 100 for `k_min = 0`, and
`100 * (1 - (0.1 + Σ_{i=1}^{k_min-1} 9^i / 10^(i+1)))` otherwise; in
particular the formula gives 90 at `k_min = 1` and 81 at `k_min = 2`. -/
theorem odds_closed_form_of_nonempty_pool (sol : Solution)
    (enum : List String → List String) (es : List Edge) (A : Nat) (dep arr : String)
    (cd : Nat) (bhs : List BountyHunter) (l : List (String × Itin))
    (hfeas : find_feasible_paths es A dep arr = .ok l)
    (hex : ∃ kv ∈ l, lastDay kv.2 ≤ cd) :
    (∃ kmin opt,
        give_me_the_odds sol enum es A dep arr cd bhs = .ok (specOddsFormula kmin, opt) ∧
        listMin ((allPool sol enum cd l).map (fun kv => countEncounters bhs kv.2))
          = some kmin) ∧
      specOddsFormula 0 = 100 ∧ specOddsFormula 1 = 90 ∧ specOddsFormula 2 = 81 := by
  refine ⟨?_, specOddsFormula_zero, specOddsFormula_one, specOddsFormula_two⟩
  obtain ⟨kmin, p, hsc, hmin⟩ := scorePool_ok bhs (allPool sol enum cd l) (allPool_ne_nil hex)
  refine ⟨kmin, p, ?_, hmin⟩
  rw [give_me_the_odds_score hfeas hex, hsc, oddsOf_eq_spec]

/-- C2, witness: concrete instance of the closed-form theorem on the
single-edge graph A-B. -/
theorem odds_closed_form_of_nonempty_pool_witness :
    ∃ kmin opt,
      give_me_the_odds mfSolution (fun l => l.dedup) [⟨"A", "B", 1⟩] 1 "A" "B" 2 []
          = .ok (specOddsFormula kmin, opt) ∧
        listMin ((allPool mfSolution (fun l => l.dedup) 2
            [("path_1", (["A", "B", "B"], [0, 1, 2]))]).map
          (fun kv => countEncounters [] kv.2)) = some kmin :=
  (odds_closed_form_of_nonempty_pool mfSolution (fun l => l.dedup) [⟨"A", "B", 1⟩]
    1 "A" "B" 2 [] [("path_1", (["A", "B", "B"], [0, 1, 2]))] (by decide)
    ⟨("path_1", (["A", "B", "B"], [0, 1, 2])), by decide, by decide⟩).1

/-! ### Claim C8 -/

/-- C8: assuming every travel_time is positive, every itinerary the pipeline
produces — the feasible (base) itineraries as well as every member of the
merged acceptable + rest-variant pool — has a day sequence that starts at 0
and is non-decreasing, parallel stop/day lists of equal length, and the
departure as its first stop. -/
theorem pipeline_itinerary_invariants (sol : Solution)
    (enum : List String → List String) (es : List Edge) (A : Nat) (dep arr : String)
    (cd : Nat) (l : List (String × Itin))
    (hpos : ∀ e ∈ es, 0 < e.travelTime) (henum : EnumSpec enum)
    (hfeas : find_feasible_paths es A dep arr = .ok l) :
    (∀ kv ∈ l, GoodItin dep kv.2) ∧ ∀ kv ∈ allPool sol enum cd l, GoodItin dep kv.2 := by
  have hbase := find_feasible_good hfeas
  refine ⟨hbase, ?_⟩
  intro kv hkv
  rw [allPool] at hkv
  rcases mem_dictInsertMany hkv with h | h
  · rw [find_acceptable_of] at h
    exact hbase kv (List.mem_filter.mp h).1
  · rcases mem_find_alternative_of h with ⟨base, hbmem, hvar⟩
    rw [find_acceptable_of] at hbmem
    have hgb := hbase base (List.mem_filter.mp hbmem).1
    exact (variantList_good (henum base.2.1.dropLast).1 (henum base.2.1.dropLast).2.1
      hgb hvar).1

/-- C8, witness: the invariants of the concrete base itinerary produced on the
single-edge graph A-B with autonomy 1. -/
theorem pipeline_itinerary_invariants_witness :
    GoodItin "A" ((["A", "B", "B"], [0, 1, 2]) : Itin) :=
  (pipeline_itinerary_invariants mfSolution (fun l => l.dedup) [⟨"A", "B", 1⟩] 1 "A" "B" 2
      [("path_1", (["A", "B", "B"], [0, 1, 2]))] (by decide) enumSpec_dedup (by decide)).1
    ("path_1", (["A", "B", "B"], [0, 1, 2])) (by decide)

/-! ### Claim C5 -/

/-- C5, counterexample.  In the Giskard solution the variant identifier is
`key + str(idx + 1)`, so the second variant of `path_1` gets the identifier
`path_12`, which COLLIDES with the base identifier of the twelfth path, and
the twelfth variant of `path_1` collides with the second variant of
`path_11`; the claimed distinctness of identifiers fails there. -/
theorem giskard_variant_key_collision_cex :
    giskardAltKey (pathKey 1) 2 = pathKey 12 ∧
      giskardAltKey (pathKey 1) 12 = giskardAltKey (pathKey 11) 2 ∧
      pathKey 1 ≠ pathKey 12 :=
  ⟨by decide, by decide, by decide⟩

/-- C5, amended: for every accepted itinerary with positive slack the
generator contributes one variant per enumerated distinct non-final stop
(`m` variants), each with stop/day sequences one longer than the original; in
the MILLENNIUM-FALCON solution the identifiers `path_n` and `path_n_i` are
pairwise distinct (across bases and variants), so inserting the variants into
the pool dictionary adds exactly as many entries; in the Giskard solution the
identifier scheme admits collisions (see the counterexample). -/
theorem mf_variant_count_and_key_distinctness :
    (∀ (enum : List String → List String) (cd : Nat) (kv : String × Itin),
        1 ≤ cd - lastDay kv.2 →
        (variantList mfSolution enum cd kv).length = (enum kv.2.1.dropLast).length) ∧
      (∀ (enum : List String → List String) (cd : Nat) (kv : String × Itin)
          (dep : String),
        (enum kv.2.1.dropLast).Nodup →
        (∀ x ∈ enum kv.2.1.dropLast, x ∈ kv.2.1.dropLast) →
        GoodItin dep kv.2 →
        ∀ p ∈ variantList mfSolution enum cd kv,
          p.2.2.length = kv.2.2.length + 1 ∧ p.2.1.length = kv.2.1.length + 1) ∧
      (∀ n m : Nat, pathKey n = pathKey m → n = m) ∧
      (∀ n i m : Nat, mfAltKey (pathKey n) i ≠ pathKey m) ∧
      (∀ n i m j : Nat, mfAltKey (pathKey n) i = mfAltKey (pathKey m) j → n = m ∧ i = j) ∧
      (∀ d ps : List (String × Itin),
        (d.map Prod.fst ++ ps.map Prod.fst).Nodup →
        (dictInsertMany d ps).length = d.length + ps.length) := by
  refine ⟨?_, ?_, fun n m h => pathKey_inj h, fun n i m => mfAltKey_pathKey_ne n i m,
    fun n i m j h => mfAltKey_pathKey_inj h, fun d ps h => dictInsertMany_length ps d h⟩
  · intro enum cd kv h
    rw [variantList, if_pos h, List.length_map, enumFrom_length]
  · intro enum cd kv dep hnd hsub hg p hp
    exact (variantList_good hnd hsub hg hp).2

/-- C5, witness: the itinerary (["A","B"], [0,1]) with countdown 5 has one
distinct non-final stop and yields exactly one variant; and a concrete
identifier disjointness instance. -/
theorem mf_variant_count_and_key_distinctness_witness :
    (variantList mfSolution (fun l => l.dedup) 5 ("path_1", (["A", "B"], [0, 1]))).length
        = ((["A", "B"] : List String).dropLast.dedup).length ∧
      mfAltKey (pathKey 1) 2 ≠ pathKey 12 :=
  ⟨mf_variant_count_and_key_distinctness.1 (fun l => l.dedup) 5
      ("path_1", (["A", "B"], [0, 1])) (by decide),
    mf_variant_count_and_key_distinctness.2.2.2.1 1 2 12⟩

/-! ### Claim C4 -/

/-- C4, counterexample.  The code inserts the marker at position
`(enumeration index) + 1` with day `days[enumeration index] + 1`, NOT
immediately after the stop's own position.  `set(path[:-1])` iteration order
is unspecified in CPython; for the acceptable itinerary
(["A","B","C"], [0,1,2]) (slack 8) take the legitimate set order ["B","A"] of
the set {A, B}.  The variant generated for stop "B" (enumeration index 0)
places the marker "B*1" at position 1 — BEFORE the stop "B", which sits at
position 2 — with inserted day `days[0] + 1 = 1`, whereas the claim prescribes
insertion immediately after B's position with day `days[1] + 1 = 2`, i.e. the
stop sequence ["A","B","B*1","C"]. -/
theorem rest_insertion_position_cex :
    ((["B", "A"] : List String).Nodup ∧
        (∀ x ∈ (["B", "A"] : List String), x ∈ (["A", "B", "C"] : List String).dropLast) ∧
        (∀ x ∈ (["A", "B", "C"] : List String).dropLast, x ∈ (["B", "A"] : List String))) ∧
      variantList mfSolution (fun _ => ["B", "A"]) 10 ("path_1", (["A", "B", "C"], [0, 1, 2]))
        = [("path_1_1", (["A", "B*1", "B", "C"], [0, 1, 2, 3])),
            ("path_1_2", (["A", "B", "A*1", "C"], [0, 1, 2, 3]))] ∧
      (["A", "B*1", "B", "C"] : List String) ≠ ["A", "B", "B*1", "C"] :=
  ⟨⟨by decide, by decide, by decide⟩, by decide, by decide⟩

/-- C4, amended: for the `k`-th stop of the set enumeration, the generated
variant inserts the rested marker at position `k + 1` of the stop sequence
(one past the ENUMERATION index, which need not be the stop's own position),
sets the inserted day to `days[k] + 1` (the day at the enumeration index), and
shifts every later day value up by exactly 1 while everything up to position
`k` is unchanged. -/
theorem rest_insertion_indexed_by_enumeration (sol : Solution)
    (enum : List String → List String) (cd : Nat) (kv : String × Itin) (k : Nat)
    (hs : 1 ≤ cd - lastDay kv.2)
    (hk : k < (enum kv.2.1.dropLast).length)
    (hkd : k + 1 ≤ kv.2.2.length) (hks : k + 1 ≤ kv.2.1.length) :
    ∃ stp, (enum kv.2.1.dropLast)[k]? = some stp ∧
      (variantList sol enum cd kv)[k]?
        = some (sol.altKey kv.1 (k + 1), mkVariant sol.marker kv.2 k stp) ∧
      (mkVariant sol.marker kv.2 k stp).1[k + 1]? = some (sol.marker stp) ∧
      (mkVariant sol.marker kv.2 k stp).2[k + 1]? = some (kv.2.2.getD k 0 + 1) ∧
      (∀ i, i ≤ k → (mkVariant sol.marker kv.2 k stp).1[i]? = kv.2.1[i]? ∧
        (mkVariant sol.marker kv.2 k stp).2[i]? = kv.2.2[i]?) ∧
      (∀ i, k + 1 ≤ i → (mkVariant sol.marker kv.2 k stp).1[i + 1]? = kv.2.1[i]? ∧
        (mkVariant sol.marker kv.2 k stp).2[i + 1]? = (kv.2.2[i]?).map (· + 1)) := by
  have hstp : (enum kv.2.1.dropLast)[k]? = some (enum kv.2.1.dropLast)[k] :=
    List.getElem?_eq_getElem hk
  have hTlen : (kv.2.1.take (k + 1)).length = k + 1 := by
    rw [List.length_take, min_eq_left hks]
  have hDlen : (kv.2.2.take (k + 1)).length = k + 1 := by
    rw [List.length_take, min_eq_left hkd]
  refine ⟨(enum kv.2.1.dropLast)[k], hstp, ?_, ?_, ?_, ?_, ?_⟩
  · rw [variantList, if_pos hs, List.getElem?_map, enumFrom_getElem?, hstp]
    simp
  · rw [mkVariant]
    dsimp only
    rw [insertAt, List.getElem?_append_right (le_of_eq hTlen), hTlen]
    simp
  · rw [mkVariant]
    dsimp only
    rw [List.getElem?_append_right (le_of_eq hDlen), hDlen]
    simp
  · intro i hi
    constructor
    · rw [mkVariant]
      dsimp only
      rw [insertAt, List.getElem?_append, hTlen, if_pos (by omega), List.getElem?_take,
        if_pos (by omega)]
    · rw [mkVariant]
      dsimp only
      rw [List.getElem?_append, hDlen, if_pos (by omega), List.getElem?_take,
        if_pos (by omega)]
  · intro i hi
    have harith : i + 1 - (k + 1) = (i - (k + 1)) + 1 := by omega
    have hback : k + 1 + (i - (k + 1)) = i := by omega
    constructor
    · rw [mkVariant]
      dsimp only
      rw [insertAt, List.getElem?_append_right (by rw [hTlen]; omega), hTlen, harith,
        List.getElem?_cons_succ, List.getElem?_drop, hback]
    · rw [mkVariant]
      dsimp only
      rw [List.getElem?_append_right (by rw [hDlen]; omega), hDlen, harith,
        List.getElem?_cons_succ, List.getElem?_map, List.getElem?_drop, hback]

/-- C4, witness: concrete instance of the positional characterisation for the
first enumerated stop of (["A","B","C"], [0,1,2]). -/
theorem rest_insertion_indexed_by_enumeration_witness :
    ∃ stp, ((fun l => List.dedup l) (["A", "B", "C"] : List String).dropLast)[0]? = some stp ∧
      (variantList mfSolution (fun l => List.dedup l) 10
          ("path_1", (["A", "B", "C"], [0, 1, 2])))[0]?
        = some (mfSolution.altKey "path_1" 1,
            mkVariant mfSolution.marker (["A", "B", "C"], [0, 1, 2]) 0 stp) ∧
      (mkVariant mfSolution.marker (["A", "B", "C"], [0, 1, 2]) 0 stp).1[1]?
        = some (mfSolution.marker stp) ∧
      (mkVariant mfSolution.marker (["A", "B", "C"], [0, 1, 2]) 0 stp).2[1]?
        = some (([0, 1, 2] : List Nat).getD 0 0 + 1) ∧
      (∀ i, i ≤ 0 →
        (mkVariant mfSolution.marker (["A", "B", "C"], [0, 1, 2]) 0 stp).1[i]?
            = (["A", "B", "C"] : List String)[i]? ∧
          (mkVariant mfSolution.marker (["A", "B", "C"], [0, 1, 2]) 0 stp).2[i]?
            = ([0, 1, 2] : List Nat)[i]?) ∧
      (∀ i, 0 + 1 ≤ i →
        (mkVariant mfSolution.marker (["A", "B", "C"], [0, 1, 2]) 0 stp).1[i + 1]?
            = (["A", "B", "C"] : List String)[i]? ∧
          (mkVariant mfSolution.marker (["A", "B", "C"], [0, 1, 2]) 0 stp).2[i + 1]?
            = (([0, 1, 2] : List Nat)[i]?).map (· + 1)) :=
  rest_insertion_indexed_by_enumeration mfSolution (fun l => List.dedup l) 10
    ("path_1", (["A", "B", "C"], [0, 1, 2])) 0 (by decide) (by decide) (by decide) (by decide)
